import Mathlib

/-!
Verification development for the WhatsApp chat-export parsing and
class/event extraction pipeline (`parse_whatsapp.py`, `combine_chats.py`,
`extract_classes.py`).

The Python functions are shallowly embedded as executable Lean functions
over `List Char` / `String`.  Regular-expression matching is embedded by
specialised matcher functions that reproduce the backtracking semantics of
Python's `re` engine on the concrete patterns appearing in the source.
Where a greedy sub-pattern is followed by a character that can never belong
to the sub-pattern's character class (for example `\d{1,2}` followed by
`:`, `/` or `,`), committed maximal munch coincides with full backtracking
and is used directly; wherever the follower set genuinely overlaps (the
`\s*(.+?):\s*(.*)$` tail after the closing bracket, and the standalone
time pattern), the full backtracking order of the engine is implemented.
-/

set_option maxRecDepth 10000

/-! ### Character classes (ASCII fragment of Python's `\d`, `\s`, `\w`) -/

/-- Python regex `\d` (ASCII decimal digits; chat exports are ASCII here). -/
def isD (c : Char) : Bool := c.isDigit

/-- Python regex `\s` / `str.isspace` (the whitespace characters relevant to
chat exports; ` ` is already normalized away before matching). -/
def isWS (c : Char) : Bool :=
  c = ' ' || c = '\t' || c = '\n' || c = '\r' ||
  c = '\x0b' || c = '\x0c' || c = ' ' ||
  (0x2000 ≤ c.val && c.val ≤ 0x200a) || c = ' ' || c = ' ' || c = '　'

/-- Python regex `\w` (word character: letter, digit or underscore). -/
def wordC (c : Char) : Bool := c.isAlpha || c.isDigit || c = '_'

/-- Python `str.strip()` on a character list. -/
def stripWS (l : List Char) : List Char :=
  ((l.dropWhile isWS).reverse.dropWhile isWS).reverse

/-- Python `str.lower()` (ASCII case folding, as used on these chat texts). -/
def lowerC (c : Char) : Char := c.toLower

/-! ### Line Normalizer (`_normalize`)

`text.replace(" ", " ").replace("‎", "").replace("\r", "")` -/

def normalizeL (l : List Char) : List Char :=
  l.filterMap (fun c =>
    if c = ' ' then some ' '
    else if c = '‎' then none
    else if c = '\r' then none
    else some c)

def normalizeS (s : String) : String := ⟨normalizeL s.data⟩

/-! ### Case-insensitive literal search primitives (for `re.IGNORECASE`) -/

/-- Does the (lowercase) literal `n` match a prefix of `h`, case-insensitively? -/
def ciStarts : List Char → List Char → Bool
  | [], _ => true
  | _ :: _, [] => false
  | n :: ns, h :: hs => (lowerC h = n) && ciStarts ns hs

/-- Search: does the (lowercase) literal `n` occur anywhere in `s`, followed by
a position where `k` holds?  (`re.search` of `n` followed by sub-pattern `k`.) -/
def ciSearchK (n : List Char) (k : List Char → Bool) : List Char → Bool
  | [] => ciStarts n [] && k []
  | c :: cs => (ciStarts n (c :: cs) && k ((c :: cs).drop n.length)) || ciSearchK n k cs

/-- Case-insensitive substring containment (`needle` given lowercase). -/
def ciContains (hay needle : List Char) : Bool :=
  ciSearchK needle (fun _ => true) hay

/-! ### Message record (`@dataclass Message`) -/

structure Message where
  time : String
  date : String
  sender : String
  body : String
deriving DecidableEq, Repr

/-! ### Grammar matcher pieces common to Format A and Format B

Each piece consumes a prefix of the input and returns the captured
characters together with the rest of the input. -/

/-- `\d{1,2}` (greedy; every use site is followed by a non-digit literal,
so committing to the maximal munch agrees with backtracking). -/
def mD12 : List Char → Option (List Char × List Char)
  | [] => none
  | [c1] => if isD c1 then some ([c1], []) else none
  | c1 :: c2 :: cs =>
    if isD c1 then
      if isD c2 then some ([c1, c2], cs) else some ([c1], c2 :: cs)
    else none

/-- `\d{n}` (exactly `n` digits). -/
def mDexact (n : Nat) (s : List Char) : Option (List Char × List Char) :=
  let g := s.take n
  if g.length = n && g.all isD then some (g, s.drop n) else none

/-- `[AP]M` under `re.IGNORECASE`. -/
def mAP : List Char → Option (List Char × List Char)
  | c1 :: c2 :: cs =>
    if (lowerC c1 = 'a' || lowerC c1 = 'p') && lowerC c2 = 'm' then
      some ([c1, c2], cs)
    else none
  | _ => none

/-- Format A time group: `\d{1,2}:\d{2}\s*[AP]M`. -/
def mTimeA (s : List Char) : Option (List Char × List Char) :=
  match mD12 s with
  | none => none
  | some (g1, r1) =>
    match r1 with
    | ':' :: r2 =>
      match mDexact 2 r2 with
      | none => none
      | some (g2, r3) =>
        match mAP (r3.dropWhile isWS) with
        | none => none
        | some (gap, r5) =>
          some (g1 ++ ':' :: g2 ++ r3.takeWhile isWS ++ gap, r5)
    | _ => none

/-- Format A date group: `\d{1,2}/\d{1,2}/\d{4}`. -/
def mDateA (s : List Char) : Option (List Char × List Char) :=
  match mD12 s with
  | none => none
  | some (g1, r1) =>
    match r1 with
    | '/' :: r2 =>
      match mD12 r2 with
      | none => none
      | some (g2, r3) =>
        match r3 with
        | '/' :: r4 =>
          match mDexact 4 r4 with
          | none => none
          | some (g3, r5) => some (g1 ++ '/' :: g2 ++ '/' :: g3, r5)
        | _ => none
    | _ => none

/-- Format B date group: `\d{1,2}/\d{1,2}/\d{2,4}` (year greedy: 4, 3, then
2 digits; the follower is `,`, never a digit, so the choices are exclusive). -/
def mDateB (s : List Char) : Option (List Char × List Char) :=
  match mD12 s with
  | none => none
  | some (g1, r1) =>
    match r1 with
    | '/' :: r2 =>
      match mD12 r2 with
      | none => none
      | some (g2, r3) =>
        match r3 with
        | '/' :: r4 =>
          match (mDexact 4 r4 <|> mDexact 3 r4 <|> mDexact 2 r4) with
          | none => none
          | some (g3, r5) => some (g1 ++ '/' :: g2 ++ '/' :: g3, r5)
        | _ => none
    | _ => none

/-- The optional seconds group `(?::\d{2})?` of Format B (greedy; its
follower `\s*[AP]M` can never start with a colon, so the alternatives are
exclusive). -/
def mSecsOpt (r3 : List Char) : List Char × List Char :=
  match r3 with
  | ':' :: r3a =>
    match mDexact 2 r3a with
    | some (gg, rr) => (':' :: gg, rr)
    | none => ([], r3)
  | _ => ([], r3)

/-- Format B time group: `\d{1,2}:\d{2}(?::\d{2})?\s*[AP]M`. -/
def mTimeB (s : List Char) : Option (List Char × List Char) :=
  match mD12 s with
  | none => none
  | some (g1, r1) =>
    match r1 with
    | ':' :: r2 =>
      match mDexact 2 r2 with
      | none => none
      | some (g2, r3) =>
        match mAP ((mSecsOpt r3).2.dropWhile isWS) with
        | none => none
        | some (gap, r5) =>
          some (g1 ++ ':' :: g2 ++ (mSecsOpt r3).1 ++
            (mSecsOpt r3).2.takeWhile isWS ++ gap, r5)
    | _ => none

/-! ### The tail after the closing bracket: `\s*(.+?):\s*(.*)$`

Here the greedy `\s*`, the lazy `(.+?)` and the final `(.*)$` genuinely
interact, so the engine's backtracking order is implemented exactly:
`\s*` prefers the longest whitespace run, the lazy group prefers the
shortest sender, `$` accepts the end of the line or a single trailing
newline. -/

/-- `(.*)$`: the greedy dot-star capture followed by the end anchor. -/
def dotStarDollar (s : List Char) : Option (List Char) :=
  let g := s.takeWhile (fun c => c ≠ '\n')
  match s.dropWhile (fun c => c ≠ '\n') with
  | [] => some g
  | ['\n'] => some g
  | _ => none

/-- `\s*(.*)$` (greedy whitespace first, then fall back to shorter runs). -/
def wsBody : List Char → Option (List Char)
  | [] => dotStarDollar []
  | c :: cs =>
    if isWS c then (wsBody cs) <|> dotStarDollar (c :: cs)
    else dotStarDollar (c :: cs)

/-- `:\s*(.*)$`. -/
def colonTail : List Char → Option (List Char)
  | ':' :: cs => wsBody cs
  | _ => none

/-- `(.+?):\s*(.*)$` — the lazy sender group: consume at least one
non-newline character, then at each step first try to close the group at
the next `:`. Returns `(sender group, body group)`. -/
def senderLazy (acc : List Char) : List Char → Option (List Char × List Char)
  | [] => none
  | c :: cs =>
    if c = '\n' then none
    else
      match colonTail cs with
      | some b => some (acc ++ [c], b)
      | none => senderLazy (acc ++ [c]) cs

/-- `\s*(.+?):\s*(.*)$` — the complete tail after `]`. -/
def wsSender : List Char → Option (List Char × List Char)
  | [] => none
  | c :: cs =>
    if isWS c then (wsSender cs) <|> senderLazy [] (c :: cs)
    else senderLazy [] (c :: cs)

/-! ### The two grammars (`FORMAT_A`, `FORMAT_B`) and `_try_parse_line` -/

/-- `FORMAT_A`: `^\[(\d{1,2}:\d{2}\s*[AP]M),\s*(\d{1,2}/\d{1,2}/\d{4})\]\s*(.+?):\s*(.*)$`.
Returns the four capture groups (time, date, sender, body). -/
def matchA (s : List Char) : Option (List Char × List Char × List Char × List Char) :=
  match s with
  | '[' :: t =>
    match mTimeA t with
    | none => none
    | some (gt, r1) =>
      match r1 with
      | ',' :: r2 =>
        match mDateA (r2.dropWhile isWS) with
        | none => none
        | some (gd, r4) =>
          match r4 with
          | ']' :: r5 =>
            match wsSender r5 with
            | none => none
            | some (sRaw, body) => some (gt, gd, sRaw, body)
          | _ => none
      | _ => none
  | _ => none

/-- `FORMAT_B`: `^\[(\d{1,2}/\d{1,2}/\d{2,4}),\s*(\d{1,2}:\d{2}(?::\d{2})?\s*[AP]M)\]\s*(.+?):\s*(.*)$`.
Returns the four capture groups (date, time, sender, body). -/
def matchB (s : List Char) : Option (List Char × List Char × List Char × List Char) :=
  match s with
  | '[' :: t =>
    match mDateB t with
    | none => none
    | some (gd, r1) =>
      match r1 with
      | ',' :: r2 =>
        match mTimeB (r2.dropWhile isWS) with
        | none => none
        | some (gt, r4) =>
          match r4 with
          | ']' :: r5 =>
            match wsSender r5 with
            | none => none
            | some (sRaw, body) => some (gd, gt, sRaw, body)
          | _ => none
      | _ => none
  | _ => none

/-- `_try_parse_line`: normalize, try Format A, then Format B; strip the
time, date and sender groups (the body is taken verbatim). -/
def tryParseLine (line : String) : Option Message :=
  let l := normalizeL line.data
  match matchA l with
  | some (gt, gd, sRaw, body) =>
    some ⟨⟨stripWS gt⟩, ⟨stripWS gd⟩, ⟨stripWS sRaw⟩, ⟨body⟩⟩
  | none =>
    match matchB l with
    | some (gd, gt, sRaw, body) =>
      some ⟨⟨stripWS gt⟩, ⟨stripWS gd⟩, ⟨stripWS sRaw⟩, ⟨body⟩⟩
    | none => none

/-! ### The derived `datetime` property

`Message.datetime` first deletes a seconds field with
`re.sub(r"(\d{1,2}:\d{2}):\d{2}(\s*[AP]M)", r"\1\2", time)`, then tries
`strptime` with `"%m/%d/%Y %I:%M %p"` and `"%m/%d/%y %I:%M %p"` on
`f"{date} {time_clean}"`, raising `ValueError` when both fail. -/

/-- A parsed calendar datetime (year, month, day, 24-hour hour, minute). -/
structure DT where
  y : Nat
  mo : Nat
  d : Nat
  h : Nat
  mi : Nat
deriving DecidableEq, Repr

/-- One attempt of the seconds-deletion pattern
`(\d{1,2}:\d{2}):\d{2}(\s*[AP]M)` at the current position; on success
returns the replacement `\1\2` and the rest of the input. -/
def secScan (s : List Char) : Option (List Char × List Char) := do
  let (g1a, r1) ← mD12 s
  match r1 with
  | ':' :: r2 => do
    let (g1b, r3) ← mDexact 2 r2
    match r3 with
    | ':' :: r4 => do
      let (_, r5) ← mDexact 2 r4
      let gw := r5.takeWhile isWS
      let r6 := r5.dropWhile isWS
      let (gap, r7) ← mAP r6
      some (g1a ++ ':' :: g1b ++ gw ++ gap, r7)
    | _ => none
  | _ => none

/-- `re.sub` scan: replace every non-overlapping occurrence, left to right.
The fuel starts at the input length; each step consumes at least one
character, so the fuel never runs out before the input does. -/
def subSecGo : Nat → List Char → List Char
  | 0, s => s
  | _ + 1, [] => []
  | fuel + 1, c :: cs =>
    match secScan (c :: cs) with
    | some (rep, rest) => rep ++ subSecGo fuel rest
    | none => c :: subSecGo fuel cs

def subSec (s : List Char) : List Char := subSecGo s.length s

/-- `strptime` directive `%m` (also `%I`): `1[0-2] | 0[1-9] | [1-9]`. -/
def pMonth : List Char → Option (Nat × List Char)
  | [] => none
  | ['1'] => some (1, [])
  | '1' :: c :: r =>
    if '0' ≤ c && c ≤ '2' then some (10 + (c.toNat - 48), r)
    else some (1, c :: r)
  | '0' :: c :: r =>
    if '1' ≤ c && c ≤ '9' then some (c.toNat - 48, r) else none
  | c :: r =>
    if '2' ≤ c && c ≤ '9' then some (c.toNat - 48, r) else none

/-- `strptime` directive `%d`: `3[01] | [12]\d | 0[1-9] | [1-9]`. -/
def pDay : List Char → Option (Nat × List Char)
  | [] => none
  | ['3'] => some (3, [])
  | '3' :: c :: r =>
    if c = '0' || c = '1' then some (30 + (c.toNat - 48), r)
    else some (3, c :: r)
  | [c1] => if '1' ≤ c1 && c1 ≤ '9' then some (c1.toNat - 48, []) else none
  | c1 :: c2 :: r =>
    if (c1 = '1' || c1 = '2') && isD c2 then
      some ((c1.toNat - 48) * 10 + (c2.toNat - 48), r)
    else if c1 = '0' && ('1' ≤ c2 && c2 ≤ '9') then some (c2.toNat - 48, r)
    else if '1' ≤ c1 && c1 ≤ '9' then some (c1.toNat - 48, c2 :: r)
    else none

/-- `strptime` directive `%M`: `[0-5]\d | \d`. -/
def pMinute : List Char → Option (Nat × List Char)
  | [] => none
  | [c1] => if isD c1 then some (c1.toNat - 48, []) else none
  | c1 :: c2 :: r =>
    if ('0' ≤ c1 && c1 ≤ '5') && isD c2 then
      some ((c1.toNat - 48) * 10 + (c2.toNat - 48), r)
    else if isD c1 then some (c1.toNat - 48, c2 :: r)
    else none

/-- `strptime` directive `%Y`: exactly four digits. -/
def pYear4 (s : List Char) : Option (Nat × List Char) := do
  let (g, r) ← mDexact 4 s
  some (g.foldl (fun a c => a * 10 + (c.toNat - 48)) 0, r)

/-- `strptime` directive `%y`: exactly two digits; 00–68 map to 2000–2068
and 69–99 map to 1969–1999. -/
def pYear2 (s : List Char) : Option (Nat × List Char) := do
  let (g, r) ← mDexact 2 s
  let v := g.foldl (fun a c => a * 10 + (c.toNat - 48)) 0
  some (if v ≤ 68 then 2000 + v else 1900 + v, r)

/-- `strptime` directive `%p` (IGNORECASE): `AM | PM`; returns `true` for PM. -/
def pAMPM : List Char → Option (Bool × List Char)
  | c1 :: c2 :: r =>
    if lowerC c2 = 'm' then
      if lowerC c1 = 'a' then some (false, r)
      else if lowerC c1 = 'p' then some (true, r)
      else none
    else none
  | _ => none

/-- `\s+` (a literal space in a `strptime` format string). -/
def pWS1 (s : List Char) : Option (List Char) :=
  let r := s.dropWhile isWS
  if r.length < s.length then some r else none

/-- Days in a month, with the Gregorian leap-year rule used by `datetime`. -/
def daysInMonth (y mo : Nat) : Nat :=
  if mo = 2 then
    if y % 4 = 0 && (y % 100 ≠ 0 || y % 400 = 0) then 29 else 28
  else if mo = 4 || mo = 6 || mo = 9 || mo = 11 then 30
  else 31

/-- `datetime.strptime(s, "%m/%d/%Y %I:%M %p")` (with `fourDigitYear`) or
`"%m/%d/%y %I:%M %p"` (without): full match required, then calendar
validation by the `datetime` constructor. -/
def parseFmt (fourDigitYear : Bool) (s : List Char) : Option DT := do
  let (mo, r1) ← pMonth s
  match r1 with
  | '/' :: r2 => do
    let (d, r3) ← pDay r2
    match r3 with
    | '/' :: r4 => do
      let (y, r5) ← if fourDigitYear then pYear4 r4 else pYear2 r4
      let r6 ← pWS1 r5
      let (h12, r7) ← pMonth r6
      match r7 with
      | ':' :: r8 => do
        let (mi, r9) ← pMinute r8
        let r10 ← pWS1 r9
        let (pm, r11) ← pAMPM r10
        if r11 = [] then
          let h := if pm then (if h12 = 12 then 12 else h12 + 12)
                   else (if h12 = 12 then 0 else h12)
          if 1 ≤ y && d ≤ daysInMonth y mo then some ⟨y, mo, d, h, mi⟩ else none
        else none
      | _ => none
    | _ => none
  | _ => none

/-- `Message.datetime` as a function of the `date` and `time` fields:
`some dt` where Python returns a `datetime`, `none` where it raises. -/
def datetimeS (date time : String) : Option DT :=
  let tc := subSec time.data
  let s := date.data ++ ' ' :: tc
  (parseFmt true s) <|> (parseFmt false s)

def msgDT (m : Message) : Option DT := datetimeS m.date m.time

/-! ### Message Assembler (`parse_messages`)

The I/O part (`_open_export`) is out of scope here; the assembler is
modeled on the sequence of lines it yields.  In the Python loop the
"current" message is an alias of the last appended message, so the state
is just the output list: a continuation line mutates the last element. -/

/-- Python truthiness of `line.strip()`: the line has a non-whitespace char. -/
def nonBlank (line : String) : Bool := stripWS line.data ≠ []

/-- Append `ext` to the body of the last message of the list (the Python
`current.body += ext` through the alias into `messages`). -/
def appendToLast (msgs : List Message) (ext : String) : List Message :=
  match msgs with
  | [] => []
  | [m] => [{ m with body := m.body ++ ext }]
  | m :: ms => m :: appendToLast ms ext

/-- One iteration of the `parse_messages` loop. -/
def stepLine (msgs : List Message) (line : String) : List Message :=
  match tryParseLine line with
  | some m => msgs ++ [m]
  | none =>
    if nonBlank line && !msgs.isEmpty then
      appendToLast msgs ("\n" ++ normalizeS line)
    else msgs

/-- `parse_messages`, on the line sequence of one export. -/
def parse_messages (lines : List String) : List Message :=
  lines.foldl stepLine []

/-! ### Chronological order on parsed datetimes

Python sorts `Message` objects by their `datetime` value; `datetime`
comparison is lexicographic on (year, month, day, hour, minute). -/

def dtleB (a b : DT) : Bool :=
  if a.y = b.y then
    if a.mo = b.mo then
      if a.d = b.d then
        if a.h = b.h then decide (a.mi ≤ b.mi)
        else decide (a.h < b.h)
      else decide (a.d < b.d)
    else decide (a.mo < b.mo)
  else decide (a.y < b.y)

theorem dtleB_total (a b : DT) : dtleB a b = true ∨ dtleB b a = true := by
  unfold dtleB
  rcases a with ⟨ay, amo, ad, ah, ami⟩
  rcases b with ⟨by', bmo, bd, bh, bmi⟩
  simp only []
  split_ifs <;> simp_all <;> omega

theorem dtleB_trans (a b c : DT) (h1 : dtleB a b = true) (h2 : dtleB b c = true) :
    dtleB a c = true := by
  unfold dtleB at *
  rcases a with ⟨ay, amo, ad, ah, ami⟩
  rcases b with ⟨by', bmo, bd, bh, bmi⟩
  rcases c with ⟨cy, cmo, cd, ch, cmi⟩
  simp only [] at *
  split_ifs at * <;> simp_all <;> omega

theorem dtleB_antisymm (a b : DT) (h1 : dtleB a b = true) (h2 : dtleB b a = true) :
    a = b := by
  unfold dtleB at *
  rcases a with ⟨ay, amo, ad, ah, ami⟩
  rcases b with ⟨by', bmo, bd, bh, bmi⟩
  simp only [] at *
  split_ifs at * <;> simp_all <;> omega

/-- The datetime a message is sorted by (all messages reaching the sort
have `msgDT ≠ none`; the default is never used there). -/
def dtOf (m : Message) : DT := (msgDT m).getD ⟨1, 1, 1, 0, 0⟩

def mle (a b : Message) : Prop := dtleB (dtOf a) (dtOf b) = true

instance : DecidableRel mle := fun a b => instDecidableEqBool _ _

instance : IsTotal Message mle := ⟨fun a b => dtleB_total (dtOf a) (dtOf b)⟩

instance : IsTrans Message mle := ⟨fun a b c => dtleB_trans (dtOf a) (dtOf b) (dtOf c)⟩

/-! ### Multi-Export Combiner (`combine_messages`)

Each export source is given by its parsed `Message` list (`parse_messages`
output; unreadable sources are skipped by the Python `except` and simply
contribute nothing).  The shared `seen` set and the output accumulate
across sources, then the whole list is sorted by `datetime`; Python's
`list.sort` is a stable sort, modeled by Mathlib's stable
`List.insertionSort`.  An unparseable `datetime` raises during sorting,
which surfaces to the caller as an error. -/

/-- The deduplication key `(msg.date, msg.time, msg.sender.lower(), msg.body[:100])`. -/
def msgKey (m : Message) : String × String × String × String :=
  (m.date, m.time, ⟨m.sender.data.map lowerC⟩, ⟨m.body.data.take 100⟩)

/-- The deduplication loop over the concatenation of all sources; returns
the kept messages and the final `seen` set. -/
def dedupGo : List (String × String × String × String) → List Message →
    List Message × List (String × String × String × String)
  | seen, [] => ([], seen)
  | seen, m :: ms =>
    if msgKey m ∈ seen then dedupGo seen ms
    else
      let r := dedupGo (msgKey m :: seen) ms
      (m :: r.1, r.2)

instance {ε α : Type} [DecidableEq ε] [DecidableEq α] : DecidableEq (Except ε α) := fun x y =>
  match x, y with
  | .ok a, .ok b =>
    if h : a = b then .isTrue (by rw [h]) else .isFalse (by simp [h])
  | .error a, .error b =>
    if h : a = b then .isTrue (by rw [h]) else .isFalse (by simp [h])
  | .ok _, .error _ => .isFalse (by simp)
  | .error _, .ok _ => .isFalse (by simp)

/-- `combine_messages`: deduplicate across sources, then sort by `datetime`
(raising when some kept message has an unparseable `datetime`). -/
def combine_messages (sources : List (List Message)) : Except String (List Message) :=
  let all := (dedupGo [] sources.flatten).1
  if all.all (fun m => (msgDT m).isSome) then
    .ok (List.insertionSort mle all)
  else
    .error "Cannot parse date/time"

/-! ### Class/Event Extractor pattern sets (`extract_classes.py`)

The three combined regexes are used only through `.search` as booleans, so
each is embedded as the existence of a match anywhere in the body.  The
alternation groups of literals expand to finite literal sets; `.*` ranges
over any run of non-newline characters. -/

/-- `.*` followed by sub-pattern `k` (the dot does not cross a newline). -/
def dotThen (k : List Char → Bool) : List Char → Bool
  | [] => k []
  | c :: cs => k (c :: cs) || (c ≠ '\n' && dotThen k cs)

/-- One of the lowercase literals `alts` at the current position, then `k`. -/
def altThen (alts : List String) (k : List Char → Bool) (s : List Char) : Bool :=
  alts.any (fun a => ciStarts a.data s && k (s.drop a.data.length))

/-- `\s+\w+` at the current position. -/
def wsWord (s : List Char) : Bool :=
  let r := s.dropWhile isWS
  r.length < s.length && (match r with | c :: _ => wordC c | [] => false)

/-- `(\s+of)?\s+\w+` at the current position. -/
def ofPart (s : List Char) : Bool :=
  (let r := s.dropWhile isWS
   r.length < s.length && ciStarts "of".data r && wsWord (r.drop 2)) ||
  wsWord s

/-- `(st|nd|rd|th)?(\s+of)?\s+\w+` at the current position. -/
def ordPart (s : List Char) : Bool :=
  altThen ["st", "nd", "rd", "th"] ofPart s || ofPart s

/-- `\d{1,2}(st|nd|rd|th)?(\s+of)?\s+\w+` at the current position. -/
def dayWordForm : List Char → Bool
  | [] => false
  | c1 :: r1 =>
    isD c1 && (ordPart r1 ||
      (match r1 with
       | c2 :: r2 => isD c2 && ordPart r2
       | [] => false))

/-- `/\d{1,2}` at the current position (the tail of `\d{1,2}/\d{1,2}`). -/
def slashTail : List Char → Bool
  | '/' :: c :: _ => isD c
  | _ => false

/-- `\d{1,2}/\d{1,2}` at the current position. -/
def slashForm : List Char → Bool
  | [] => false
  | c1 :: r1 =>
    isD c1 && (slashTail r1 ||
      (match r1 with
       | c2 :: r2 => isD c2 && slashTail r2
       | [] => false))

/-- The date-ish tail of the first reschedule pattern:
`(\d{1,2}(st|nd|rd|th)?(\s+of)?\s+\w+|\d{1,2}/\d{1,2})`. -/
def dateishP (s : List Char) : Bool := dayWordForm s || slashForm s

/-- `CLASS_REGEX.search(body)`: some class-indicator pattern occurs. -/
def classSearch (body : List Char) : Bool :=
  ciContains body "see the kiddos".data ||
  (["see you all", "see you today", "see you tomorrow", "see you sunday",
    "see you saturday"].any (fun p => ciContains body p.data)) ||
  (["class at", "class is", "class will be", "class today",
    "class tomorrow"].any (fun p => ciContains body p.data)) ||
  ciSearchK "come by ".data (fun r => match r with | c :: _ => isD c | [] => false) body ||
  ciContains body "meet.google.com".data ||
  ciContains body "facetime.apple.com".data ||
  ciContains body "zoom.us".data || ciContains body "zoom.com".data ||
  (["practice at", "practice today", "practice tomorrow"].any
    (fun p => ciContains body p.data))

/-- `EVENT_REGEX.search(body)`: some event pattern occurs. -/
def eventSearch (body : List Char) : Bool :=
  ["performance", "concert", "event", "havan", "annual day"].any
    (fun p => ciContains body p.data)

/-- `RESCHEDULE_REGEX.search(body)`: some reschedule/cancellation pattern occurs. -/
def reschedSearch (body : List Char) : Bool :=
  ciSearchK "moved".data
    (dotThen (altThen ["to", "for"] (dotThen dateishP))) body ||
  ciSearchK "rescheduled".data
    (dotThen (altThen ["to", "for"] (fun _ => true))) body ||
  ciContains body "cancelled".data ||
  ciContains body "no class".data ||
  ciSearchK "class".data (dotThen (fun r => ciStarts "cancelled".data r)) body

/-- `detect_class_type`. -/
def detect_class_type (body : String) : String :=
  let b := body.data
  if reschedSearch b then
    if ciContains b "cancel".data then "cancelled" else "rescheduled"
  else if ciContains b "online".data || ciContains b "facetime".data ||
      ciContains b "meet.google".data then "online"
  else if eventSearch b then "performance"
  else "class"

/-! ### `TIME_REGEX` and `extract_time_from_text`

`\b(\d{1,2}(?::\d{2})?\s*(?:am|pm)?)\b` with `re.search`: leftmost match,
with the engine's backtracking (greedy digits, greedy optional seconds,
greedy whitespace, alternatives `am` before `pm` before nothing), and word
boundaries on both sides. -/

/-- Word boundary between the previous character and the head of `s`. -/
def bdry (prev : Option Char) (s : List Char) : Bool :=
  let pw := match prev with | some c => wordC c | none => false
  let nw := match s with | c :: _ => wordC c | [] => false
  pw != nw

/-- Close the capture group `g` at the current position: final `\b` test. -/
def tClose (g : List Char) (s : List Char) : Option (List Char) :=
  if bdry g.getLast? s then some g else none

/-- `(?:am|pm)?` (greedy, `am` tried before `pm`), then the closing `\b`. -/
def tAmpm (g : List Char) (s : List Char) : Option (List Char) :=
  (match s with
   | c1 :: c2 :: r =>
     if lowerC c1 = 'a' && lowerC c2 = 'm' then tClose (g ++ [c1, c2]) r else none
   | _ => none) <|>
  (match s with
   | c1 :: c2 :: r =>
     if lowerC c1 = 'p' && lowerC c2 = 'm' then tClose (g ++ [c1, c2]) r else none
   | _ => none) <|>
  tClose g s

/-- `\s*` (greedy with fallback), then `(?:am|pm)?\b`. -/
def tWs (g : List Char) : List Char → Option (List Char)
  | [] => tAmpm g []
  | c :: cs =>
    if isWS c then (tWs (g ++ [c]) cs) <|> tAmpm g (c :: cs)
    else tAmpm g (c :: cs)

/-- `(?::\d{2})?` (greedy with full-continuation fallback), then the rest. -/
def tOptSec (g : List Char) (s : List Char) : Option (List Char) :=
  (match s with
   | ':' :: c1 :: c2 :: r =>
     if isD c1 && isD c2 then tWs (g ++ [':', c1, c2]) r else none
   | _ => none) <|> tWs g s

/-- `\d{1,2}` (two digits tried before one, full continuation), then the rest. -/
def tDigits (s : List Char) : Option (List Char) :=
  (match s with
   | c1 :: c2 :: r => if isD c1 && isD c2 then tOptSec [c1, c2] r else none
   | _ => none) <|>
  (match s with
   | c1 :: r => if isD c1 then tOptSec [c1] r else none
   | _ => none)

/-- The `re.search` scan: try the pattern at each position, left to right. -/
def tScan (prev : Option Char) : List Char → Option (List Char)
  | [] => none
  | c :: cs =>
    match (if bdry prev (c :: cs) then tDigits (c :: cs) else none) with
    | some g => some g
    | none => tScan (some c) cs

/-- `extract_time_from_text`. -/
def extract_time_from_text (text : String) : Option String :=
  (tScan none text.data).map (fun l => ⟨l⟩)

/-! ### `ClassDate` and `extract_classes` -/

structure ClassDate where
  date : String
  time : Option String
  class_type : String
  evidence : String
  message_datetime : DT
deriving DecidableEq, Repr

/-- `msg.is_from_teacher(teacher_name)`:
`teacher_name.lower() in msg.sender.lower()`. -/
def is_from_teacher (m : Message) (teacher : String) : Bool :=
  ciContains m.sender.data (teacher.data.map lowerC)

/-- `body[:100] + ("..." if len(body) > 100 else "")`. -/
def evidenceOf (body : String) : String :=
  ⟨body.data.take 100 ++ (if 100 < body.data.length then "...".data else [])⟩

/-- The step-1 gate of `extract_classes`:
`CLASS_REGEX.search(body) or EVENT_REGEX.search(body)`. -/
def gateB (m : Message) : Bool :=
  classSearch m.body.data || eventSearch m.body.data

/-- Is the classification one that bypasses the per-date dedup skip? -/
def isOverride (ct : String) : Bool :=
  ct = "cancelled" || ct = "rescheduled"

/-- The `extract_classes` message loop, with the emitted `ClassDate`s and the
`seen_dates` set as state; evaluating `msg.datetime` on an emitted message
raises when the datetime is unparseable, which aborts the whole extraction. -/
def extractGo (teacher : String) :
    List Message → List ClassDate × List String →
    Except String (List ClassDate × List String)
  | [], st => .ok st
  | m :: ms, (acc, seen) =>
    if is_from_teacher m teacher then
      if gateB m then
        let ct := detect_class_type m.body
        let tm := extract_time_from_text m.body
        if seen.contains m.date && !isOverride ct then
          extractGo teacher ms (acc, seen)
        else
          match msgDT m with
          | none => .error "Cannot parse date/time"
          | some dt =>
            extractGo teacher ms
              (acc ++ [⟨m.date, tm, ct, evidenceOf m.body, dt⟩], m.date :: seen)
      else extractGo teacher ms (acc, seen)
    else extractGo teacher ms (acc, seen)

/-- Chronological order on extracted `ClassDate`s (`key=lambda c: c.message_datetime`). -/
def cdle (a b : ClassDate) : Prop := dtleB a.message_datetime b.message_datetime = true

instance : DecidableRel cdle := fun a b => instDecidableEqBool _ _

instance : IsTotal ClassDate cdle :=
  ⟨fun a b => dtleB_total a.message_datetime b.message_datetime⟩

instance : IsTrans ClassDate cdle :=
  ⟨fun a b c => dtleB_trans a.message_datetime b.message_datetime c.message_datetime⟩

/-- `extract_classes(messages, teacher_name)`: scan the messages, then sort
the detected `ClassDate`s by the originating message's datetime (Python's
stable `list.sort`, modeled by the stable `List.insertionSort`). -/
def extract_classes (messages : List Message) (teacher : String) :
    Except String (List ClassDate) :=
  match extractGo teacher messages ([], []) with
  | .error e => .error e
  | .ok (acc, _) => .ok (List.insertionSort cdle acc)

/-! ## Claims -/

/-! ### C1

The spec's Scenario 3 claims that after "class at 5", a second teacher
message "class cancelled" on the same date yields a second ClassDate with
`class_type = "cancelled"`.  In the code, however, a message reaches the
classification step only if `CLASS_REGEX` or `EVENT_REGEX` matches, and
the body "class cancelled" matches neither (the class indicators require
"class " followed by at/is/will be/today/tomorrow), so that message is
skipped entirely and only one ClassDate is produced. -/

/-- Claim C1, as stated, is false: with bodies "class at 5" and
"class cancelled" on the same date, the Extractor emits only the first
ClassDate; the second message fails the class/event indicator gate
(`classSearch` and `eventSearch` are both false on "class cancelled"),
so no cancelled ClassDate appears. -/
theorem c1_counterexample :
    extract_classes
        [⟨"5:55 PM", "2/8/2026", "Vaishnavi", "class at 5"⟩,
         ⟨"6:00 PM", "2/8/2026", "Vaishnavi", "class cancelled"⟩] "Vaishnavi" =
      .ok [⟨"2/8/2026", some "5", "class", "class at 5", ⟨2026, 2, 8, 17, 55⟩⟩] ∧
    classSearch "class cancelled".data = false ∧
    eventSearch "class cancelled".data = false := by
  decide

/-- Claim C1 amended: with the second teacher-authored message's body
containing a class indicator as well as a cancellation (for example
"class today cancelled"), both ClassDates are emitted for the same date
string — the first with `class_type = "class"`, the second with
`class_type = "cancelled"` — because cancellations/reschedules bypass the
per-date dedup skip. -/
theorem c1_amended :
    extract_classes
        [⟨"5:55 PM", "2/8/2026", "Vaishnavi", "class at 5"⟩,
         ⟨"6:00 PM", "2/8/2026", "Vaishnavi", "class today cancelled"⟩] "Vaishnavi" =
      .ok [⟨"2/8/2026", some "5", "class", "class at 5", ⟨2026, 2, 8, 17, 55⟩⟩,
           ⟨"2/8/2026", none, "cancelled", "class today cancelled", ⟨2026, 2, 8, 18, 0⟩⟩] := by
  decide

/-! ### C5 -/

/-- Claim C5: the line `[7/17/23, 5:54:21 PM] Priya: ok` matches Grammar B
(Format A fails) and yields `Message(time="5:54:21 PM", date="7/17/23",
sender="Priya", body="ok")`; its derived datetime is July 17 2023, 5:54 PM
(17:54), obtained from the 2-digit-year format after the seconds are
stripped and the 4-digit-year format fails. -/
theorem c5_scenario2 :
    tryParseLine "[7/17/23, 5:54:21 PM] Priya: ok" =
      some ⟨"5:54:21 PM", "7/17/23", "Priya", "ok"⟩ ∧
    matchA ("[7/17/23, 5:54:21 PM] Priya: ok".data) = none ∧
    subSec "5:54:21 PM".data = "5:54 PM".data ∧
    parseFmt true ("7/17/23 5:54 PM".data) = none ∧
    parseFmt false ("7/17/23 5:54 PM".data) = some ⟨2023, 7, 17, 17, 54⟩ ∧
    datetimeS "7/17/23" "5:54:21 PM" = some ⟨2023, 7, 17, 17, 54⟩ := by
  decide

/-! ### C6 -/

/-- Claim C6: the line `[5:55 PM, 2/8/2026] Vaishnavi Kondapalli: Class
today at 5` parses under Grammar A to the expected Message, and the
Extractor (teacher "Vaishnavi") on that single message yields exactly one
ClassDate with date "2/8/2026", time "5" and class_type "class". -/
theorem c6_scenario1 :
    tryParseLine "[5:55 PM, 2/8/2026] Vaishnavi Kondapalli: Class today at 5" =
      some ⟨"5:55 PM", "2/8/2026", "Vaishnavi Kondapalli", "Class today at 5"⟩ ∧
    extract_classes [⟨"5:55 PM", "2/8/2026", "Vaishnavi Kondapalli", "Class today at 5"⟩]
        "Vaishnavi" =
      .ok [⟨"2/8/2026", some "5", "class", "Class today at 5", ⟨2026, 2, 8, 17, 55⟩⟩] := by
  decide

/-! ### Deduplication lemmas (for C3 and C8) -/

theorem dedupGo_seen_mono (ms : List Message) :
    ∀ (seen : List (String × String × String × String)) (k), k ∈ seen →
      k ∈ (dedupGo seen ms).2 := by
  induction ms with
  | nil => intro seen k hk; simpa [dedupGo] using hk
  | cons m ms ih =>
    intro seen k hk
    by_cases h : msgKey m ∈ seen
    · simpa [dedupGo, h] using ih seen k hk
    · simpa [dedupGo, h] using ih (msgKey m :: seen) k (List.mem_cons_of_mem _ hk)

theorem dedupGo_key_final (ms : List Message) :
    ∀ (seen) (m : Message), m ∈ ms → msgKey m ∈ (dedupGo seen ms).2 := by
  induction ms with
  | nil => intro seen m hm; simp at hm
  | cons a ms ih =>
    intro seen m hm
    by_cases h : msgKey a ∈ seen
    · rcases List.mem_cons.mp hm with rfl | hm'
      · simpa [dedupGo, h] using dedupGo_seen_mono ms seen (msgKey m) h
      · simpa [dedupGo, h] using ih seen m hm'
    · rcases List.mem_cons.mp hm with rfl | hm'
      · simpa [dedupGo, h] using
          dedupGo_seen_mono ms (msgKey m :: seen) (msgKey m) (List.mem_cons_self _ _)
      · simpa [dedupGo, h] using ih (msgKey a :: seen) m hm'

theorem dedupGo_append (xs ys : List Message) :
    ∀ seen, dedupGo seen (xs ++ ys) =
      ((dedupGo seen xs).1 ++ (dedupGo (dedupGo seen xs).2 ys).1,
        (dedupGo (dedupGo seen xs).2 ys).2) := by
  induction xs with
  | nil => intro seen; simp [dedupGo]
  | cons a xs ih =>
    intro seen
    by_cases h : msgKey a ∈ seen
    · simp [dedupGo, h, ih]
    · simp [dedupGo, h, ih]

theorem dedupGo_all_seen (ms : List Message) :
    ∀ seen, (∀ m ∈ ms, msgKey m ∈ seen) → dedupGo seen ms = ([], seen) := by
  induction ms with
  | nil => intro seen _; simp [dedupGo]
  | cons a ms ih =>
    intro seen h
    have ha : msgKey a ∈ seen := h a (List.mem_cons_self _ _)
    simp [dedupGo, ha]
    exact ih seen (fun m hm => h m (List.mem_cons_of_mem _ hm))

/-! ### C3 -/

/-- Claim C3: the Combiner is idempotent on duplicated input — for every
export source (given by its parsed Message list), combining
`[source, source]` yields exactly the same result as combining `[source]`:
every message of the second pass has a deduplication key already seen in
the first pass and is dropped. -/
theorem c3_combine_idempotent (source : List Message) :
    combine_messages [source, source] = combine_messages [source] := by
  have hflat2 : ([source, source] : List (List Message)).flatten = source ++ source := by
    simp
  have hflat1 : ([source] : List (List Message)).flatten = source := by simp
  have hkeys : ∀ m ∈ source, msgKey m ∈ (dedupGo [] source).2 :=
    fun m hm => dedupGo_key_final source [] m hm
  have hsecond : dedupGo (dedupGo [] source).2 source = ([], (dedupGo [] source).2) :=
    dedupGo_all_seen source _ hkeys
  have hdedup : (dedupGo [] (source ++ source)).1 = (dedupGo [] source).1 := by
    rw [dedupGo_append, hsecond]
    simp
  unfold combine_messages
  rw [hflat2, hflat1, hdedup]

/-! ### C8 -/

/-- Every input message's key survives deduplication: some kept message has
the same key (in particular the same `date` and `time`). -/
theorem dedupGo_key_surv (ms : List Message) :
    ∀ seen (m : Message), m ∈ ms →
      msgKey m ∈ seen ∨ ∃ m' ∈ (dedupGo seen ms).1, msgKey m' = msgKey m := by
  induction ms with
  | nil => intro seen m hm; simp at hm
  | cons a ms ih =>
    intro seen m hm
    by_cases h : msgKey a ∈ seen
    · rcases List.mem_cons.mp hm with rfl | hm'
      · exact Or.inl h
      · rcases ih seen m hm' with hl | ⟨m', hm'', hk⟩
        · exact Or.inl hl
        · exact Or.inr ⟨m', by simpa [dedupGo, h] using hm'', hk⟩
    · rcases List.mem_cons.mp hm with rfl | hm'
      · exact Or.inr ⟨m, by simp [dedupGo, h], rfl⟩
      · rcases ih (msgKey a :: seen) m hm' with hl | ⟨m', hm'', hk⟩
        · rcases List.mem_cons.mp hl with heq | hseen
          · exact Or.inr ⟨a, by simp [dedupGo, h], heq.symm⟩
          · exact Or.inl hseen
        · exact Or.inr ⟨m', by simp [dedupGo, h, hm''], hk⟩

/-- Claim C8: if a Message's `(date, time)` pair is accepted by neither
datetime format (4-digit year, then 2-digit year), its derived `datetime`
fails, and a combine over any sources containing that message surfaces the
error to the caller instead of silently dropping or coercing it. -/
theorem c8_unparseable_surfaces (m : Message) (sources : List (List Message))
    (h4 : parseFmt true (m.date.data ++ ' ' :: subSec m.time.data) = none)
    (h2 : parseFmt false (m.date.data ++ ' ' :: subSec m.time.data) = none)
    (hmem : m ∈ sources.flatten) :
    msgDT m = none ∧ combine_messages sources = .error "Cannot parse date/time" ∧
      (∀ (teacher : String) (ms : List Message) (acc : List ClassDate) (seen : List String),
        is_from_teacher m teacher = true → gateB m = true →
        (seen.contains m.date && !isOverride (detect_class_type m.body)) = false →
        extractGo teacher (m :: ms) (acc, seen) = .error "Cannot parse date/time") := by
  have hdt : msgDT m = none := by
    simp [msgDT, datetimeS, h4, h2]
  refine ⟨hdt, ?_, ?_⟩
  · rcases dedupGo_key_surv sources.flatten [] m hmem with hl | ⟨m', hm', hk⟩
    · simp at hl
    · have hdate : m'.date = m.date := congrArg (fun k => k.1) hk
      have htime : m'.time = m.time := congrArg (fun k => k.2.1) hk
      have hdt' : msgDT m' = none := by
        rw [msgDT, hdate, htime]
        exact hdt
      unfold combine_messages
      have hnotall : ¬ ((dedupGo [] sources.flatten).1.all (fun x => (msgDT x).isSome) = true) := by
        intro hall
        have := List.all_eq_true.mp hall m' hm'
        rw [hdt'] at this
        simp at this
      simp [hnotall]
  · intro teacher ms acc seen ht hg hskip
    simp only [extractGo, ht, hg, if_true, hskip, Bool.false_eq_true, if_false, hdt]

/-- Witness for C8 at a concrete input: date "2/30/2026" is syntactically
accepted by the grammars but fails calendar validation in both formats. -/
theorem c8_witness :
    parseFmt true ("2/30/2026 5:55 PM".data) = none ∧
    parseFmt false ("2/30/2026 5:55 PM".data) = none ∧
    msgDT ⟨"5:55 PM", "2/30/2026", "A", "x"⟩ = none ∧
    combine_messages [[⟨"5:55 PM", "2/30/2026", "A", "x"⟩]] =
      .error "Cannot parse date/time" ∧
    extractGo "A" [⟨"5:55 PM", "2/30/2026", "Anita", "class at 5"⟩] ([], []) =
      .error "Cannot parse date/time" := by
  have h := c8_unparseable_surfaces ⟨"5:55 PM", "2/30/2026", "A", "x"⟩
    [[⟨"5:55 PM", "2/30/2026", "A", "x"⟩]] (by decide) (by decide) (by decide)
  have h2 := c8_unparseable_surfaces ⟨"5:55 PM", "2/30/2026", "Anita", "class at 5"⟩
    [[⟨"5:55 PM", "2/30/2026", "Anita", "class at 5"⟩]] (by decide) (by decide) (by decide)
  exact ⟨by decide, by decide, h.1, h.2.1,
    h2.2.2 "A" [] [] [] (by decide) (by decide) (by decide)⟩

/-! ### Stability of the sort (for C4) -/

theorem dtleB_refl (a : DT) : dtleB a a = true := by
  unfold dtleB
  split_ifs <;> simp_all

/-- Inserting `a` preserves the filtered sublist of elements equivalent to
`a` under `p` (all `p`-elements are mutually `r`-comparable, so `a` is
inserted before none of them it should follow). -/
theorem filter_orderedInsert (r : α → α → Prop) [DecidableRel r]
    (p : α → Prop) [DecidablePred p] (hp : ∀ x y, p x → p y → r x y)
    (a : α) (l : List α) :
    (List.orderedInsert r a l).filter (fun x => decide (p x)) =
      if p a then a :: l.filter (fun x => decide (p x))
      else l.filter (fun x => decide (p x)) := by
  induction l with
  | nil => by_cases hpa : p a <;> simp [List.orderedInsert, hpa]
  | cons b l ih =>
    by_cases hrab : r a b
    · by_cases hpa : p a <;> simp [List.orderedInsert, hrab, hpa]
    · by_cases hpa : p a
      · have hpb : ¬ p b := fun hpb => hrab (hp a b hpa hpb)
        simp [List.orderedInsert, hrab, hpa, hpb, ih]
      · by_cases hpb : p b <;> simp [List.orderedInsert, hrab, hpa, hpb, ih]

/-- Stability: sorting does not change the relative order of elements that
are mutually `r`-comparable under `p` (they keep input encounter order). -/
theorem filter_insertionSort (r : α → α → Prop) [DecidableRel r]
    (p : α → Prop) [DecidablePred p] (hp : ∀ x y, p x → p y → r x y)
    (l : List α) :
    (List.insertionSort r l).filter (fun x => decide (p x)) =
      l.filter (fun x => decide (p x)) := by
  induction l with
  | nil => simp
  | cons b l ih =>
    by_cases hpb : p b <;>
      simp [List.insertionSort, filter_orderedInsert r p hp, hpb, ih]

/-! ### C4 -/

/-- Claim C4: whenever the Combiner succeeds (all kept messages have
parseable datetimes), its output is non-decreasing by the parsed datetime,
and messages with equal parsed datetimes appear in their input encounter
order (the order in which deduplication kept them) — the sort is stable. -/
theorem c4_combine_sorted_stable (sources : List (List Message)) (out : List Message)
    (h : combine_messages sources = .ok out) :
    List.Sorted mle out ∧
      (∀ d : DT, out.filter (fun m => decide (msgDT m = some d)) =
        ((dedupGo [] sources.flatten).1).filter (fun m => decide (msgDT m = some d))) := by
  have hout : out = List.insertionSort mle (dedupGo [] sources.flatten).1 := by
    unfold combine_messages at h
    by_cases hall : ((dedupGo [] sources.flatten).1.all (fun m => (msgDT m).isSome) = true)
    · simp only [hall, if_true] at h
      exact (Except.ok.inj h).symm
    · simp [hall] at h
  constructor
  · rw [hout]
    exact List.sorted_insertionSort mle _
  · intro d
    rw [hout]
    refine filter_insertionSort mle (fun m => msgDT m = some d) ?_ _
    intro x y hx hy
    unfold mle dtOf
    rw [hx, hy]
    simp [dtleB_refl]

/-- Witness for C4 at a concrete input (two messages arriving out of
chronological order, plus a duplicate dropped by deduplication). -/
theorem c4_witness :
    combine_messages
        [[⟨"6:00 PM", "2/8/2026", "A", "x"⟩, ⟨"5:00 PM", "2/8/2026", "B", "y"⟩],
         [⟨"6:00 PM", "2/8/2026", "A", "x"⟩]] =
      .ok [⟨"5:00 PM", "2/8/2026", "B", "y"⟩, ⟨"6:00 PM", "2/8/2026", "A", "x"⟩] ∧
    List.Sorted mle [(⟨"5:00 PM", "2/8/2026", "B", "y"⟩ : Message),
        ⟨"6:00 PM", "2/8/2026", "A", "x"⟩] ∧
    (∀ d : DT,
      ([(⟨"5:00 PM", "2/8/2026", "B", "y"⟩ : Message),
        ⟨"6:00 PM", "2/8/2026", "A", "x"⟩]).filter (fun m => decide (msgDT m = some d)) =
      ((dedupGo []
          ([[⟨"6:00 PM", "2/8/2026", "A", "x"⟩, ⟨"5:00 PM", "2/8/2026", "B", "y"⟩],
            [⟨"6:00 PM", "2/8/2026", "A", "x"⟩]] : List (List Message)).flatten).1).filter
        (fun m => decide (msgDT m = some d))) := by
  have h := c4_combine_sorted_stable
    [[⟨"6:00 PM", "2/8/2026", "A", "x"⟩, ⟨"5:00 PM", "2/8/2026", "B", "y"⟩],
     [⟨"6:00 PM", "2/8/2026", "A", "x"⟩]]
    [⟨"5:00 PM", "2/8/2026", "B", "y"⟩, ⟨"6:00 PM", "2/8/2026", "A", "x"⟩]
    (by decide)
  exact ⟨by decide, h.1, h.2⟩

/-! ### C7 -/

/-- Claim C7: during assembly, an input line matching neither grammar is
appended (as a newline plus the normalized line) to the current message's
body when a current message exists (the output list is non-empty) and the
line is non-blank; and when no current message exists the line is
discarded, producing no Message and changing no existing Message. -/
theorem c7_continuation (msgs : List Message) (line : String)
    (h : tryParseLine line = none) :
    ((msgs ≠ [] ∧ nonBlank line = true) →
      stepLine msgs line = appendToLast msgs ("\n" ++ normalizeS line)) ∧
    (msgs = [] → stepLine msgs line = msgs) := by
  constructor
  · rintro ⟨hne, hnb⟩
    have hempty : msgs.isEmpty = false := by
      cases msgs with
      | nil => exact absurd rfl hne
      | cons a l => rfl
    simp [stepLine, h, hnb, hempty]
  · rintro rfl
    simp [stepLine, h]

/-- Witness for C7 at concrete inputs: the continuation line "hello" after
a matched message is appended with a newline separator; with no current
message it is discarded. -/
theorem c7_witness :
    tryParseLine "hello" = none ∧
    stepLine [⟨"5:54:21 PM", "7/17/23", "Priya", "ok"⟩] "hello" =
      [⟨"5:54:21 PM", "7/17/23", "Priya", "ok\nhello"⟩] ∧
    stepLine [] "hello" = [] := by
  refine ⟨by decide, ?_, ?_⟩
  · have h := (c7_continuation [⟨"5:54:21 PM", "7/17/23", "Priya", "ok"⟩] "hello"
      (by decide)).1 ⟨by decide, by decide⟩
    rw [h]
    decide
  · exact (c7_continuation [] "hello" (by decide)).2 rfl

/-! ### C9 -/

/-- Claim C9: message assembly is total over content — every line is
classified into exactly one of three outcomes: it starts a new Message
(appended to the output), it extends the current (last) Message's body, or
it is discarded leaving the state unchanged; the three guards are mutually
exclusive and exhaustive, and no error is possible (datetime parsing is
not consulted during assembly). -/
theorem c9_assembler_total (msgs : List Message) (line : String) :
    (∃ m, tryParseLine line = some m ∧ stepLine msgs line = msgs ++ [m]) ∨
    (tryParseLine line = none ∧ (nonBlank line = true ∧ msgs ≠ []) ∧
      stepLine msgs line = appendToLast msgs ("\n" ++ normalizeS line)) ∨
    (tryParseLine line = none ∧ (nonBlank line = false ∨ msgs = []) ∧
      stepLine msgs line = msgs) := by
  cases hp : tryParseLine line with
  | some m => exact Or.inl ⟨m, rfl, by simp [stepLine, hp]⟩
  | none =>
    cases hnb : nonBlank line with
    | false => exact Or.inr (Or.inr ⟨rfl, Or.inl rfl, by simp [stepLine, hp, hnb]⟩)
    | true =>
      cases msgs with
      | nil => exact Or.inr (Or.inr ⟨rfl, Or.inr rfl, by simp [stepLine, hp]⟩)
      | cons a l =>
        exact Or.inr (Or.inl ⟨rfl, ⟨rfl, by simp⟩, by simp [stepLine, hp, hnb]⟩)

/-! ### Extractor fold lemmas (for C10) -/

/-- Splitting the extraction fold across an append (the `Except` error of
an earlier message aborts the rest). -/
theorem extractGo_append (t : String) (xs ys : List Message) :
    ∀ st, extractGo t (xs ++ ys) st = (extractGo t xs st).bind (extractGo t ys) := by
  induction xs with
  | nil => intro st; simp [extractGo, Except.bind]
  | cons m xs ih =>
    rintro ⟨acc, seen⟩
    simp only [List.cons_append, extractGo]
    split
    · split
      · split
        · exact ih _
        · split
          · rfl
          · exact ih _
      · exact ih _
    · exact ih _

/-- Every extracted `ClassDate` is either inherited from the accumulator or
produced by some teacher-authored, gate-passing message, with matching
`class_type` and `date`. -/
theorem extractGo_emit (t : String) (xs : List Message) :
    ∀ acc seen acc' seen', extractGo t xs (acc, seen) = .ok (acc', seen') →
      ∀ cd ∈ acc', cd ∈ acc ∨ ∃ m ∈ xs, is_from_teacher m t = true ∧ gateB m = true ∧
        cd.class_type = detect_class_type m.body ∧ cd.date = m.date := by
  induction xs with
  | nil =>
    intro acc seen acc' seen' h cd hcd
    simp only [extractGo, Except.ok.injEq, Prod.mk.injEq] at h
    exact Or.inl (h.1 ▸ hcd)
  | cons m xs ih =>
    intro acc seen acc' seen' h cd hcd
    simp only [extractGo] at h
    split_ifs at h with ht hg hskip
    · rcases ih _ _ _ _ h cd hcd with h1 | ⟨m', hm', rest⟩
      · exact Or.inl h1
      · exact Or.inr ⟨m', List.mem_cons_of_mem _ hm', rest⟩
    · split at h
      · exact absurd h (by simp)
      · rcases ih _ _ _ _ h cd hcd with h1 | ⟨m', hm', rest⟩
        · rcases List.mem_append.mp h1 with h2 | h2
          · exact Or.inl h2
          · have hcd0 := List.mem_singleton.mp h2
            refine Or.inr ⟨m, List.mem_cons_self _ _, ht, hg, ?_, ?_⟩
            · rw [hcd0]
            · rw [hcd0]
        · exact Or.inr ⟨m', List.mem_cons_of_mem _ hm', rest⟩
    · rcases ih _ _ _ _ h cd hcd with h1 | ⟨m', hm', rest⟩
      · exact Or.inl h1
      · exact Or.inr ⟨m', List.mem_cons_of_mem _ hm', rest⟩
    · rcases ih _ _ _ _ h cd hcd with h1 | ⟨m', hm', rest⟩
      · exact Or.inl h1
      · exact Or.inr ⟨m', List.mem_cons_of_mem _ hm', rest⟩

/-- Once a date is in `seen_dates`, every later emission for that date is a
cancellation/reschedule: the per-date dedup skip blocks class, online and
performance classifications. -/
theorem extractGo_seen_blocks (t : String) (xs : List Message) :
    ∀ acc seen acc' seen' (d : String), d ∈ seen →
      extractGo t xs (acc, seen) = .ok (acc', seen') →
      ∀ cd ∈ acc', cd ∈ acc ∨ cd.date ≠ d ∨ isOverride cd.class_type = true := by
  induction xs with
  | nil =>
    intro acc seen acc' seen' d hd h cd hcd
    simp only [extractGo, Except.ok.injEq, Prod.mk.injEq] at h
    exact Or.inl (h.1 ▸ hcd)
  | cons m xs ih =>
    intro acc seen acc' seen' d hd h cd hcd
    simp only [extractGo] at h
    split_ifs at h with ht hg hskip
    · exact ih _ _ _ _ d hd h cd hcd
    · split at h
      · exact absurd h (by simp)
      · rcases ih _ _ _ _ d (List.mem_cons_of_mem _ hd) h cd hcd with h1 | h1 | h1
        · rcases List.mem_append.mp h1 with h2 | h2
          · exact Or.inl h2
          · have hcd0 := List.mem_singleton.mp h2
            by_cases hdd : m.date = d
            · have hcont : seen.contains m.date = true :=
                List.elem_iff.mpr (by rw [hdd]; exact hd)
              have hov : isOverride (detect_class_type m.body) = true := by
                cases hb : isOverride (detect_class_type m.body) with
                | true => rfl
                | false => exact absurd (by rw [hcont, hb]; rfl) hskip
              exact Or.inr (Or.inr (by rw [hcd0]; exact hov))
            · exact Or.inr (Or.inl (by rw [hcd0]; exact hdd))
        · exact Or.inr (Or.inl h1)
        · exact Or.inr (Or.inr h1)
    · exact ih _ _ _ _ d hd h cd hcd
    · exact ih _ _ _ _ d hd h cd hcd

/-! ### C10 -/

/-- Claim C10: emitting a cancelled/rescheduled ClassDate marks its date as
seen exactly like a class emission does.  If a teacher-authored,
gate-passing message classified cancelled/rescheduled for date `d` occurs
before any class/online/performance mention of `d`, then the extraction
output contains no ClassDate for `d` of a non-override type: every
ClassDate for that date is a cancellation or reschedule. -/
theorem c10_override_marks_seen (teacher : String) (l1 l2 : List Message) (mc : Message)
    (out : List ClassDate)
    (ht : is_from_teacher mc teacher = true) (hg : gateB mc = true)
    (hov : isOverride (detect_class_type mc.body) = true)
    (hl1 : ∀ m ∈ l1, ¬(is_from_teacher m teacher = true ∧ gateB m = true ∧
        m.date = mc.date ∧ isOverride (detect_class_type m.body) = false))
    (hex : extract_classes (l1 ++ mc :: l2) teacher = .ok out) :
    ∀ cd ∈ out, cd.date = mc.date → isOverride cd.class_type = true := by
  intro cd hcd hdate
  cases hE : extractGo teacher (l1 ++ mc :: l2) ([], []) with
  | error e => simp [extract_classes, hE] at hex
  | ok st =>
    obtain ⟨acc, seen⟩ := st
    have hout : out = List.insertionSort cdle acc := by
      simp [extract_classes, hE] at hex
      exact hex.symm
    have hcdacc : cd ∈ acc := by
      have := hout ▸ hcd
      exact (List.mem_insertionSort cdle).mp this
    rw [extractGo_append] at hE
    cases h1 : extractGo teacher l1 ([], []) with
    | error e => rw [h1] at hE; simp [Except.bind] at hE
    | ok st1 =>
      obtain ⟨a1, s1⟩ := st1
      rw [h1] at hE
      simp only [Except.bind] at hE
      simp only [extractGo, ht, hg, hov, Bool.not_true, Bool.and_false,
        Bool.false_eq_true, if_false, if_true] at hE
      cases hdt : msgDT mc with
      | none => rw [hdt] at hE; simp at hE
      | some dt =>
        rw [hdt] at hE
        have hblocks := extractGo_seen_blocks teacher l2 _ _ _ _ mc.date
          (List.mem_cons_self _ _) hE cd hcdacc
        rcases hblocks with hmem | hne | hovr
        · rcases List.mem_append.mp hmem with hina | hinmc
          · have hemit := extractGo_emit teacher l1 _ _ _ _ h1 cd hina
            rcases hemit with hnil | ⟨m, hm, htm, hgm, hct, hdm⟩
            · simp at hnil
            · have hdm' : m.date = mc.date := by rw [← hdm, hdate]
              have := hl1 m hm
              have hovm : isOverride (detect_class_type m.body) = true := by
                cases hb : isOverride (detect_class_type m.body) with
                | true => rfl
                | false => exact absurd ⟨htm, hgm, hdm', hb⟩ this
              rw [hct]
              exact hovm
          · have hcd0 := List.mem_singleton.mp hinmc
            rw [hcd0]
            exact hov
        · exact absurd hdate hne
        · exact hovr

/-- Witness for C10 at a concrete input: the cancellation
"class today cancelled" on 2/8/2026 precedes the class mention
"class at 5" on the same date, so the class mention is skipped and the
only ClassDate for that date is the cancellation. -/
theorem c10_witness :
    is_from_teacher ⟨"5:55 PM", "2/8/2026", "Vaishnavi", "class today cancelled"⟩ "Vaishnavi" = true ∧
    gateB ⟨"5:55 PM", "2/8/2026", "Vaishnavi", "class today cancelled"⟩ = true ∧
    isOverride (detect_class_type "class today cancelled") = true ∧
    extract_classes
        [⟨"5:55 PM", "2/8/2026", "Vaishnavi", "class today cancelled"⟩,
         ⟨"6:00 PM", "2/8/2026", "Vaishnavi", "class at 5"⟩] "Vaishnavi" =
      .ok [⟨"2/8/2026", none, "cancelled", "class today cancelled", ⟨2026, 2, 8, 17, 55⟩⟩] ∧
    (∀ cd ∈ [(⟨"2/8/2026", none, "cancelled", "class today cancelled",
        ⟨2026, 2, 8, 17, 55⟩⟩ : ClassDate)], cd.date = "2/8/2026" →
      isOverride cd.class_type = true) := by
  refine ⟨by decide, by decide, by decide, by decide, ?_⟩
  have h := c10_override_marks_seen "Vaishnavi" []
    [⟨"6:00 PM", "2/8/2026", "Vaishnavi", "class at 5"⟩]
    ⟨"5:55 PM", "2/8/2026", "Vaishnavi", "class today cancelled"⟩
    [⟨"2/8/2026", none, "cancelled", "class today cancelled", ⟨2026, 2, 8, 17, 55⟩⟩]
    (by decide) (by decide) (by decide) (by intro m hm; simp at hm) (by decide)
  exact h

/-! ### C2

The spec claims the sender/body delimiter is the first `": "` (colon
followed by a space).  In both regexes the delimiter is `:` followed by
`\s*` — zero or more whitespace — so the split actually happens at the
first colon, whether or not a space follows. -/

/-- Modelled from the spec's words (for comparison only): split at the
first occurrence of `": "` (colon followed by space); sender is the text
before it, body everything after it. -/
def specColonSpaceSplit : List Char → Option (List Char × List Char)
  | [] => none
  | ':' :: ' ' :: rest => some ([], rest)
  | c :: cs =>
    match specColonSpaceSplit cs with
    | some (s, b) => some (c :: s, b)
    | none => none

/-- Claim C2, as stated, is false: on the Grammar-A line
`[5:55 PM, 2/8/2026] A:B: hi` the first `": "` sits after `A:B`, so the
spec's split would give sender "A:B" and body "hi", but the code splits at
the first bare colon, giving sender "A" and body "B: hi". -/
theorem c2_counterexample :
    tryParseLine "[5:55 PM, 2/8/2026] A:B: hi" =
      some ⟨"5:55 PM", "2/8/2026", "A", "B: hi"⟩ ∧
    specColonSpaceSplit "A:B: hi".data = some ("A:B".data, "hi".data) ∧
    ("A" : String) ≠ "A:B" := by
  decide

/-! Decomposition of the post-bracket tail under the code's real split
(`\s*(.+?):\s*(.*)$`), for lines without embedded newlines (the assembler
only ever feeds newline-free lines). -/

theorem normalize_no_nl {l : List Char} (h : '\n' ∉ l) : '\n' ∉ normalizeL l := by
  intro hc
  unfold normalizeL at hc
  obtain ⟨a, ha, hfa⟩ := List.mem_filterMap.mp hc
  split_ifs at hfa <;> simp_all

theorem dotStarDollar_no_nl {s : List Char} (h : '\n' ∉ s) : dotStarDollar s = some s := by
  have hall : ∀ a ∈ s, decide (a ≠ '\n') = true := fun a ha => by
    simp only [ne_eq, decide_eq_true_eq]
    rintro rfl
    exact h ha
  have h1 : s.takeWhile (fun c => c ≠ '\n') = s := List.takeWhile_eq_self_iff.mpr hall
  have h2 : s.dropWhile (fun c => c ≠ '\n') = [] := List.dropWhile_eq_nil_iff.mpr hall
  simp only [dotStarDollar, h1, h2]

theorem wsBody_no_nl : ∀ {s : List Char}, '\n' ∉ s → wsBody s = some (s.dropWhile isWS) := by
  intro s
  induction s with
  | nil => intro _; rfl
  | cons c cs ih =>
    intro h
    have hcs : '\n' ∉ cs := fun e => h (List.mem_cons_of_mem c e)
    by_cases hw : isWS c = true
    · simp only [wsBody, hw, if_true, ih hcs, Option.some_orElse, List.dropWhile_cons, hw]
    · simp [wsBody, hw, dotStarDollar_no_nl h]

theorem colonTail_some {cs : List Char} (h : '\n' ∉ cs) :
    colonTail (':' :: cs) = some (cs.dropWhile isWS) := by
  simp only [colonTail, wsBody_no_nl h]

theorem colonTail_some_shape {s : List Char} {b : List Char} (hnl : '\n' ∉ s)
    (h : colonTail s = some b) : ∃ cs, s = ':' :: cs ∧ b = cs.dropWhile isWS := by
  cases s with
  | nil => exact absurd h (by simp [colonTail])
  | cons c0 cs0 =>
    by_cases hc0 : c0 = ':'
    · subst hc0
      rw [colonTail_some (fun e => hnl (List.mem_cons_of_mem _ e))] at h
      exact ⟨cs0, rfl, (Option.some.inj h).symm⟩
    · have hnone : colonTail (c0 :: cs0) = none := by
        unfold colonTail
        split
        · simp_all
        · rfl
      rw [hnone] at h
      exact Option.noConfusion h

theorem colonTail_none_shape {c : Char} {cs : List Char} (hnl : '\n' ∉ c :: cs)
    (h : colonTail (c :: cs) = none) : c ≠ ':' := by
  rintro rfl
  rw [colonTail_some (fun e => hnl (List.mem_cons_of_mem _ e))] at h
  exact Option.noConfusion h

theorem senderLazy_decomp : ∀ (rem : List Char), '\n' ∉ rem →
    ∀ (acc sOut b : List Char), senderLazy acc rem = some (sOut, b) →
    ∃ pre rest, rem = pre ++ ':' :: rest ∧ sOut = acc ++ pre ∧ pre ≠ [] ∧
      (∀ c ∈ pre.drop 1, c ≠ ':') ∧ b = rest.dropWhile isWS := by
  intro rem
  induction rem with
  | nil => intro _ acc sOut b h; exact absurd h (by simp [senderLazy])
  | cons c cs ih =>
    intro hnl acc sOut b h
    have hc : c ≠ '\n' := fun e => hnl (e ▸ List.mem_cons_self c cs)
    have hcs : '\n' ∉ cs := fun e => hnl (List.mem_cons_of_mem c e)
    simp only [senderLazy] at h
    rw [if_neg hc] at h
    cases hct : colonTail cs with
    | some b0 =>
      rw [hct] at h
      have h1 : acc ++ [c] = sOut := congrArg Prod.fst (Option.some.inj h)
      have h2 : b0 = b := congrArg Prod.snd (Option.some.inj h)
      obtain ⟨cs', hcs', hb0⟩ := colonTail_some_shape hcs hct
      refine ⟨[c], cs', by rw [hcs']; rfl, h1.symm, by simp, by simp, ?_⟩
      rw [← h2]
      exact hb0
    | none =>
      rw [hct] at h
      obtain ⟨pre', rest, hsplit, hsOut, hne, hdrop, hb⟩ := ih hcs (acc ++ [c]) sOut b h
      refine ⟨c :: pre', rest, by rw [hsplit]; rfl, by rw [hsOut]; simp,
        List.cons_ne_nil c pre', ?_, hb⟩
      intro x hx
      simp only [List.drop_one, List.tail_cons] at hx
      cases hpre' : pre' with
      | nil => rw [hpre'] at hx; simp at hx
      | cons p0 pt =>
        rw [hpre'] at hx
        rcases List.mem_cons.mp hx with rfl | hxt
        · have hcs_shape : cs = x :: (pt ++ ':' :: rest) := by rw [hsplit, hpre']; rfl
          exact colonTail_none_shape (hcs_shape ▸ hcs) (hcs_shape ▸ hct)
        · apply hdrop
          rw [hpre']
          simpa using hxt

theorem wsSender_decomp : ∀ (r : List Char), '\n' ∉ r →
    ∀ (sOut b : List Char), wsSender r = some (sOut, b) →
    ∃ w pre rest, r = w ++ (pre ++ ':' :: rest) ∧ (∀ c ∈ w, isWS c = true) ∧
      sOut = pre ∧ pre ≠ [] ∧ (∀ c ∈ pre.drop 1, c ≠ ':') ∧ b = rest.dropWhile isWS := by
  intro r
  induction r with
  | nil => intro _ sOut b h; exact absurd h (by simp [wsSender])
  | cons c cs ih =>
    intro hnl sOut b h
    have hcs : '\n' ∉ cs := fun e => hnl (List.mem_cons_of_mem c e)
    by_cases hw : isWS c = true
    · simp only [wsSender, hw, if_true] at h
      cases hws : wsSender cs with
      | some p =>
        rw [hws] at h
        simp only [Option.some_orElse] at h
        obtain ⟨w', pre, rest, hsplit, hww, hsOut, hpne, hpcol, hb⟩ :=
          ih hcs sOut b (by rw [hws, ← h])
        refine ⟨c :: w', pre, rest, by rw [hsplit]; rfl, ?_, hsOut, hpne, hpcol, hb⟩
        intro x hx
        rcases List.mem_cons.mp hx with rfl | hxt
        · exact hw
        · exact hww x hxt
      | none =>
        rw [hws] at h
        simp only [Option.none_orElse] at h
        obtain ⟨pre, rest, hsplit, hsOut, hpne, hpcol, hb⟩ :=
          senderLazy_decomp (c :: cs) hnl [] sOut b h
        refine ⟨[], pre, rest, by rw [hsplit]; rfl, by simp, by rw [hsOut]; rfl, hpne, hpcol, hb⟩
    · simp only [wsSender, hw, if_false] at h
      obtain ⟨pre, rest, hsplit, hsOut, hpne, hpcol, hb⟩ :=
        senderLazy_decomp (c :: cs) hnl [] sOut b h
      refine ⟨[], pre, rest, by rw [hsplit]; rfl, by simp, by rw [hsOut]; rfl, hpne, hpcol, hb⟩

/-! Suffix lemmas: each bracket-piece matcher leaves a suffix of its input. -/

theorem mD12_suffix : ∀ {s g r : List Char}, mD12 s = some (g, r) → r <:+ s := by
  intro s g r h
  unfold mD12 at h
  split at h
  · exact absurd h (by simp)
  · rename_i c1
    split_ifs at h
    · have he : ([] : List Char) = r := congrArg Prod.snd (Option.some.inj h)
      rw [← he]
      exact List.nil_suffix
  · rename_i c1 c2 cs
    split_ifs at h
    · have he : cs = r := congrArg Prod.snd (Option.some.inj h)
      rw [← he]
      exact (List.suffix_cons _ _).trans (List.suffix_cons _ _)
    · have he : c2 :: cs = r := congrArg Prod.snd (Option.some.inj h)
      rw [← he]
      exact List.suffix_cons _ _

theorem mDexact_suffix : ∀ {n : Nat} {s g r : List Char}, mDexact n s = some (g, r) →
    r <:+ s := by
  intro n s g r h
  simp only [mDexact] at h
  split_ifs at h
  have he : s.drop n = r := congrArg Prod.snd (Option.some.inj h)
  rw [← he]
  exact List.drop_suffix n s

theorem mAP_suffix : ∀ {s g r : List Char}, mAP s = some (g, r) → r <:+ s := by
  intro s g r h
  unfold mAP at h
  split at h
  · rename_i c1 c2 cs
    split_ifs at h
    have he : cs = r := congrArg Prod.snd (Option.some.inj h)
    rw [← he]
    exact (List.suffix_cons _ _).trans (List.suffix_cons _ _)
  · exact absurd h (by simp)

theorem mSecsOpt_suffix (r3 : List Char) : (mSecsOpt r3).2 <:+ r3 := by
  unfold mSecsOpt
  split
  · rename_i r3a
    split
    · rename_i gg rr heq
      exact (mDexact_suffix heq).trans (List.suffix_cons _ _)
    · exact List.suffix_refl _
  · exact List.suffix_refl _

theorem mTimeA_suffix : ∀ {s g r : List Char}, mTimeA s = some (g, r) → r <:+ s := by
  intro s g r h
  unfold mTimeA at h
  split at h
  · exact absurd h (by simp)
  · rename_i g1 r1 heq1
    split at h
    · rename_i r2
      split at h
      · exact absurd h (by simp)
      · rename_i g2 r3 heq2
        split at h
        · exact absurd h (by simp)
        · rename_i gap r5 heq3
          have hr : r5 = r := congrArg Prod.snd (Option.some.inj h)
          rw [← hr]
          have s5 : r5 <:+ (r3.dropWhile isWS) := mAP_suffix heq3
          have s4 : (r3.dropWhile isWS) <:+ r3 := List.dropWhile_suffix isWS
          have s3 : r3 <:+ r2 := mDexact_suffix heq2
          have s2 : r2 <:+ (':' :: r2) := List.suffix_cons _ _
          have s1 : (':' :: r2) <:+ s := mD12_suffix heq1
          exact (((s5.trans s4).trans s3).trans s2).trans s1
    · exact absurd h (by simp)

theorem mDateA_suffix : ∀ {s g r : List Char}, mDateA s = some (g, r) → r <:+ s := by
  intro s g r h
  unfold mDateA at h
  split at h
  · exact absurd h (by simp)
  · rename_i g1 r1 heq1
    split at h
    · rename_i r2
      split at h
      · exact absurd h (by simp)
      · rename_i g2 r3 heq2
        split at h
        · rename_i r4
          split at h
          · exact absurd h (by simp)
          · rename_i g3 r5 heq3
            have hr : r5 = r := congrArg Prod.snd (Option.some.inj h)
            rw [← hr]
            have s5 : r5 <:+ r4 := mDexact_suffix heq3
            have s4 : r4 <:+ ('/' :: r4) := List.suffix_cons _ _
            have s3 : ('/' :: r4) <:+ r2 := mD12_suffix heq2
            have s2 : r2 <:+ ('/' :: r2) := List.suffix_cons _ _
            have s1 : ('/' :: r2) <:+ s := mD12_suffix heq1
            exact (((s5.trans s4).trans s3).trans s2).trans s1
        · exact absurd h (by simp)
    · exact absurd h (by simp)

theorem mDateB_suffix : ∀ {s g r : List Char}, mDateB s = some (g, r) → r <:+ s := by
  intro s g r h
  unfold mDateB at h
  split at h
  · exact absurd h (by simp)
  · rename_i g1 r1 heq1
    split at h
    · rename_i r2
      split at h
      · exact absurd h (by simp)
      · rename_i g2 r3 heq2
        split at h
        · rename_i r4
          split at h
          · exact absurd h (by simp)
          · rename_i g3 r5 heq3
            have hr : r5 = r := congrArg Prod.snd (Option.some.inj h)
            rw [← hr]
            have s5 : r5 <:+ r4 := by
              cases e4 : mDexact 4 r4 with
              | some p =>
                rw [e4] at heq3
                simp only [Option.some_orElse, Option.some.injEq] at heq3
                exact mDexact_suffix (e4.trans (by rw [heq3]))
              | none =>
                rw [e4] at heq3
                simp only [Option.none_orElse] at heq3
                cases e3 : mDexact 3 r4 with
                | some p =>
                  rw [e3] at heq3
                  simp only [Option.some_orElse, Option.some.injEq] at heq3
                  exact mDexact_suffix (e3.trans (by rw [heq3]))
                | none =>
                  rw [e3] at heq3
                  simp only [Option.none_orElse] at heq3
                  exact mDexact_suffix heq3
            have s4 : r4 <:+ ('/' :: r4) := List.suffix_cons _ _
            have s3 : ('/' :: r4) <:+ r2 := mD12_suffix heq2
            have s2 : r2 <:+ ('/' :: r2) := List.suffix_cons _ _
            have s1 : ('/' :: r2) <:+ s := mD12_suffix heq1
            exact (((s5.trans s4).trans s3).trans s2).trans s1
        · exact absurd h (by simp)
    · exact absurd h (by simp)

theorem mTimeB_suffix : ∀ {s g r : List Char}, mTimeB s = some (g, r) → r <:+ s := by
  intro s g r h
  unfold mTimeB at h
  split at h
  · exact absurd h (by simp)
  · rename_i g1 r1 heq1
    split at h
    · rename_i r2
      split at h
      · exact absurd h (by simp)
      · rename_i g2 r3 heq2
        split at h
        · exact absurd h (by simp)
        · rename_i gap r5 heq3
          have hr : r5 = r := congrArg Prod.snd (Option.some.inj h)
          rw [← hr]
          have s6 : r5 <:+ ((mSecsOpt r3).2.dropWhile isWS) := mAP_suffix heq3
          have s5 : ((mSecsOpt r3).2.dropWhile isWS) <:+ (mSecsOpt r3).2 :=
            List.dropWhile_suffix isWS
          have s4 : (mSecsOpt r3).2 <:+ r3 := mSecsOpt_suffix r3
          have s3 : r3 <:+ r2 := mDexact_suffix heq2
          have s2 : r2 <:+ (':' :: r2) := List.suffix_cons _ _
          have s1 : (':' :: r2) <:+ s := mD12_suffix heq1
          exact ((((s6.trans s5).trans s4).trans s3).trans s2).trans s1
    · exact absurd h (by simp)

theorem matchA_tail : ∀ {l gt gd sRaw b : List Char},
    matchA l = some (gt, gd, sRaw, b) →
    ∃ pre tail, l = '[' :: (pre ++ ']' :: tail) ∧ wsSender tail = some (sRaw, b) := by
  intro l gt gd sRaw b h
  unfold matchA at h
  split at h
  · rename_i t
    split at h
    · exact absurd h (by simp)
    · rename_i gt1 r1 heq1
      split at h
      · rename_i r2
        split at h
        · exact absurd h (by simp)
        · rename_i gd1 r4 heq2
          split at h
          · rename_i r5
            split at h
            · exact absurd h (by simp)
            · rename_i sR bb heq3
              have hinj := Option.some.inj h
              have hs : sR = sRaw := congrArg (fun q => q.2.2.1) hinj
              have hbb : bb = b := congrArg (fun q => q.2.2.2) hinj
              have s4 : (']' :: r5) <:+ (r2.dropWhile isWS) := mDateA_suffix heq2
              have s3 : (r2.dropWhile isWS) <:+ r2 := List.dropWhile_suffix isWS
              have s2 : r2 <:+ (',' :: r2) := List.suffix_cons _ _
              have s1 : (',' :: r2) <:+ t := mTimeA_suffix heq1
              obtain ⟨p, hp⟩ := ((s4.trans s3).trans s2).trans s1
              refine ⟨p, r5, by rw [← hp], ?_⟩
              rw [← hs, ← hbb]
              exact heq3
          · exact absurd h (by simp)
      · exact absurd h (by simp)
  · exact absurd h (by simp)

theorem matchB_tail : ∀ {l gd gt sRaw b : List Char},
    matchB l = some (gd, gt, sRaw, b) →
    ∃ pre tail, l = '[' :: (pre ++ ']' :: tail) ∧ wsSender tail = some (sRaw, b) := by
  intro l gd gt sRaw b h
  unfold matchB at h
  split at h
  · rename_i t
    split at h
    · exact absurd h (by simp)
    · rename_i gd1 r1 heq1
      split at h
      · rename_i r2
        split at h
        · exact absurd h (by simp)
        · rename_i gt1 r4 heq2
          split at h
          · rename_i r5
            split at h
            · exact absurd h (by simp)
            · rename_i sR bb heq3
              have hinj := Option.some.inj h
              have hs : sR = sRaw := congrArg (fun q => q.2.2.1) hinj
              have hbb : bb = b := congrArg (fun q => q.2.2.2) hinj
              have s4 : (']' :: r5) <:+ (r2.dropWhile isWS) := mTimeB_suffix heq2
              have s3 : (r2.dropWhile isWS) <:+ r2 := List.dropWhile_suffix isWS
              have s2 : r2 <:+ (',' :: r2) := List.suffix_cons _ _
              have s1 : (',' :: r2) <:+ t := mDateB_suffix heq1
              obtain ⟨p, hp⟩ := ((s4.trans s3).trans s2).trans s1
              refine ⟨p, r5, by rw [← hp], ?_⟩
              rw [← hs, ← hbb]
              exact heq3
          · exact absurd h (by simp)
      · exact absurd h (by simp)
  · exact absurd h (by simp)

/-- Claim C2 amended: for every newline-free line matched by Grammar A or
Grammar B, the matcher returns exactly one (time, date, sender, body)
split in which the text after the closing bracket decomposes as optional
whitespace, then the sender text, then a single colon — the first colon
after at least one sender character, whether or not a space follows it —
then the body, which is everything after that colon with the whitespace
run following the colon removed (possibly empty).  The sender is that text
with surrounding whitespace stripped; it contains no colon after its first
character. -/
theorem c2_amended_split (line : String) (m : Message)
    (hnl : '\n' ∉ line.data) (hm : tryParseLine line = some m) :
    ∃ pre w sRaw rest,
      normalizeL line.data = '[' :: (pre ++ ']' :: (w ++ (sRaw ++ ':' :: rest))) ∧
      (∀ c ∈ w, isWS c = true) ∧ sRaw ≠ [] ∧ (∀ c ∈ sRaw.drop 1, c ≠ ':') ∧
      m.sender = ⟨stripWS sRaw⟩ ∧ m.body = ⟨rest.dropWhile isWS⟩ := by
  have hnl' : '\n' ∉ normalizeL line.data := normalize_no_nl hnl
  simp only [tryParseLine] at hm
  cases hA : matchA (normalizeL line.data) with
  | some q =>
    obtain ⟨gt, gd, sR, bb⟩ := q
    rw [hA] at hm
    obtain ⟨pre, tail, hsplit, hws⟩ := matchA_tail hA
    have htail : '\n' ∉ tail := by
      intro hc
      apply hnl'
      rw [hsplit]
      simp [hc]
    obtain ⟨w, p, rest, hdec, hwws, hsOut, hpne, hpcol, hb⟩ :=
      wsSender_decomp tail htail sR bb hws
    refine ⟨pre, w, p, rest, by rw [hsplit, hdec], hwws, hpne, hpcol, ?_, ?_⟩
    · have : m = ⟨⟨stripWS gt⟩, ⟨stripWS gd⟩, ⟨stripWS sR⟩, ⟨bb⟩⟩ := (Option.some.inj hm).symm
      rw [this, hsOut]
    · have : m = ⟨⟨stripWS gt⟩, ⟨stripWS gd⟩, ⟨stripWS sR⟩, ⟨bb⟩⟩ := (Option.some.inj hm).symm
      rw [this, hb]
  | none =>
    rw [hA] at hm
    cases hB : matchB (normalizeL line.data) with
    | some q =>
      obtain ⟨gd, gt, sR, bb⟩ := q
      rw [hB] at hm
      obtain ⟨pre, tail, hsplit, hws⟩ := matchB_tail hB
      have htail : '\n' ∉ tail := by
        intro hc
        apply hnl'
        rw [hsplit]
        simp [hc]
      obtain ⟨w, p, rest, hdec, hwws, hsOut, hpne, hpcol, hb⟩ :=
        wsSender_decomp tail htail sR bb hws
      refine ⟨pre, w, p, rest, by rw [hsplit, hdec], hwws, hpne, hpcol, ?_, ?_⟩
      · have : m = ⟨⟨stripWS gt⟩, ⟨stripWS gd⟩, ⟨stripWS sR⟩, ⟨bb⟩⟩ := (Option.some.inj hm).symm
        rw [this, hsOut]
      · have : m = ⟨⟨stripWS gt⟩, ⟨stripWS gd⟩, ⟨stripWS sR⟩, ⟨bb⟩⟩ := (Option.some.inj hm).symm
        rw [this, hb]
    | none =>
      rw [hB] at hm
      exact absurd hm (by simp)

/-- Witness for the amended C2 at a concrete line. -/
theorem c2_amended_witness :
    ('\n' ∉ ("[5:55 PM, 2/8/2026] A:B: hi").data) ∧
    tryParseLine "[5:55 PM, 2/8/2026] A:B: hi" =
      some ⟨"5:55 PM", "2/8/2026", "A", "B: hi"⟩ ∧
    (∃ pre w sRaw rest,
      normalizeL ("[5:55 PM, 2/8/2026] A:B: hi").data =
        '[' :: (pre ++ ']' :: (w ++ (sRaw ++ ':' :: rest))) ∧
      (∀ c ∈ w, isWS c = true) ∧ sRaw ≠ [] ∧ (∀ c ∈ sRaw.drop 1, c ≠ ':') ∧
      (⟨"5:55 PM", "2/8/2026", "A", "B: hi"⟩ : Message).sender = ⟨stripWS sRaw⟩ ∧
      (⟨"5:55 PM", "2/8/2026", "A", "B: hi"⟩ : Message).body = ⟨rest.dropWhile isWS⟩) := by
  refine ⟨by decide, by decide, ?_⟩
  exact c2_amended_split "[5:55 PM, 2/8/2026] A:B: hi"
    ⟨"5:55 PM", "2/8/2026", "A", "B: hi"⟩ (by decide) (by decide)
